import Mathlib

set_option maxRecDepth 16384

/-!
Verification of the variant-spelling conversion core of `backend/app/corrector.py`.

The development shallowly embeds the pure parts of the program:

* the US->UK spelling dictionary `_US_TO_UK` and the derived reverse
  dictionary `_UK_TO_US` (Python `dict` semantics: insertion order,
  duplicate keys silently overwritten last-wins);
* the tokenizer regex `_TOKEN_RE = ([A-Za-z]+|[^A-Za-z]+)` driven by
  `re.finditer` (maximal alternating runs of ASCII-alphabetic and
  non-alphabetic characters);
* the protected-span regex `_URL_RE` with its three alternatives
  (`https?://[^\s]+`, `www\.[^\s]+`, and the e-mail shape
  `[a-zA-Z0-9._%+-]+@[a-zA-Z0-9.-]+\.[a-zA-Z]{2,}`), including the
  backtracking behaviour of the greedy domain part, again driven by
  `re.finditer`;
* `TextCorrector._match_case` (fallible: Python raises `IndexError` on
  `original[0]` / `replacement[0]` for empty strings, modelled by
  `Option`);
* `TextCorrector._convert_variant` (token walk, URL-span skipping,
  case-insensitive lookup, casing projection, no-op suppression and
  change recording).

Strings are embedded as `List Char`.  Character classes (`isalpha`,
`isupper`, `lower`, `upper`, regex `\s`) are modelled at ASCII precision:
the dictionary keys and values are pure ASCII, so every lookup, casing
projection and recorded change is decided by ASCII characters only, and
tokens containing non-ASCII characters always pass through unchanged in
both the program and the model.
-/

namespace Corrector

/-- Strings of the embedded program are lists of characters. -/
abbrev Str := List Char

/-- One atomic edit record, from `schemas.Change`
(`type`, `original`, `replacement`). -/
structure Change where
  type : String
  original : Str
  replacement : Str
deriving DecidableEq, Repr

/-- The literal key/value pairs of the `_US_TO_UK` dict in source order
(`corrector.py` lines 11-166). -/
def usToUkPairs : List (String × String) := [
  -- -or / -our
  ("color", "colour"),
  ("colors", "colours"),
  ("colored", "coloured"),
  ("coloring", "colouring"),
  ("colorful", "colourful"),
  ("favor", "favour"),
  ("favors", "favours"),
  ("favorite", "favourite"),
  ("favorites", "favourites"),
  ("flavor", "flavour"),
  ("flavors", "flavours"),
  ("honor", "honour"),
  ("honors", "honours"),
  ("honored", "honoured"),
  ("humor", "humour"),
  ("humors", "humours"),
  ("labor", "labour"),
  ("labors", "labours"),
  ("neighbor", "neighbour"),
  ("neighbors", "neighbours"),
  ("neighborhood", "neighbourhood"),
  ("rumor", "rumour"),
  ("rumors", "rumours"),
  ("savior", "saviour"),
  ("valor", "valour"),
  ("vigor", "vigour"),
  ("behavior", "behaviour"),
  ("behaviors", "behaviours"),
  ("endeavor", "endeavour"),
  ("endeavors", "endeavours"),
  -- -ize / -ise
  ("organize", "organise"),
  ("organizes", "organises"),
  ("organized", "organised"),
  ("organizing", "organising"),
  ("organization", "organisation"),
  ("organizations", "organisations"),
  ("recognize", "recognise"),
  ("recognizes", "recognises"),
  ("recognized", "recognised"),
  ("recognizing", "recognising"),
  ("realize", "realise"),
  ("realizes", "realises"),
  ("realized", "realised"),
  ("realizing", "realising"),
  ("apologize", "apologise"),
  ("apologizes", "apologises"),
  ("apologized", "apologised"),
  ("apologizing", "apologising"),
  ("authorize", "authorise"),
  ("authorized", "authorised"),
  ("capitalize", "capitalise"),
  ("capitalized", "capitalised"),
  ("categorize", "categorise"),
  ("categorized", "categorised"),
  ("centralize", "centralise"),
  ("centralized", "centralised"),
  ("characterize", "characterise"),
  ("characterized", "characterised"),
  ("customize", "customise"),
  ("customized", "customised"),
  ("emphasize", "emphasise"),
  ("emphasized", "emphasised"),
  ("finalize", "finalise"),
  ("finalized", "finalised"),
  ("generalize", "generalise"),
  ("generalized", "generalised"),
  ("initialize", "initialise"),
  ("initialized", "initialised"),
  ("maximize", "maximise"),
  ("minimized", "minimised"),
  ("minimize", "minimise"),
  ("modernize", "modernise"),
  ("normalize", "normalise"),
  ("normalized", "normalised"),
  ("optimize", "optimise"),
  ("optimized", "optimised"),
  ("prioritize", "prioritise"),
  ("prioritized", "prioritised"),
  ("specialize", "specialise"),
  ("specialized", "specialised"),
  ("standardize", "standardise"),
  ("standardized", "standardised"),
  ("summarize", "summarise"),
  ("summarized", "summarised"),
  ("symbolize", "symbolise"),
  ("symbolized", "symbolised"),
  ("utilize", "utilise"),
  ("utilized", "utilised"),
  ("visualize", "visualise"),
  ("visualized", "visualised"),
  -- -er / -re
  ("center", "centre"),
  ("centers", "centres"),
  ("centered", "centred"),
  ("fiber", "fibre"),
  ("fibers", "fibres"),
  ("liter", "litre"),
  ("liters", "litres"),
  ("meter", "metre"),
  ("meters", "metres"),
  ("theater", "theatre"),
  ("theaters", "theatres"),
  -- -og / -ogue
  ("analog", "analogue"),
  ("catalog", "catalogue"),
  ("dialog", "dialogue"),
  ("monolog", "monologue"),
  -- -ense / -ence
  ("defense", "defence"),
  ("offense", "offence"),
  ("license", "licence"),
  ("pretense", "pretence"),
  -- -l- / -ll-
  ("traveling", "travelling"),
  ("traveled", "travelled"),
  ("traveler", "traveller"),
  ("travelers", "travellers"),
  ("canceled", "cancelled"),
  ("canceling", "cancelling"),
  ("counselor", "counsellor"),
  ("counselors", "counsellors"),
  ("enrollment", "enrolment"),
  ("fulfillment", "fulfilment"),
  ("modeling", "modelling"),
  ("modeled", "modelled"),
  ("signaling", "signalling"),
  ("signaled", "signalled"),
  -- misc
  ("program", "programme"),
  ("programs", "programmes"),
  ("programmed", "programmed"),
  ("gray", "grey"),
  ("grays", "greys"),
  ("tire", "tyre"),
  ("tires", "tyres"),
  ("airplane", "aeroplane"),
  ("airplanes", "aeroplanes"),
  ("artifact", "artefact"),
  ("artifacts", "artefacts"),
  ("check", "cheque"),
  ("checks", "cheques"),
  ("curb", "kerb"),
  ("curbs", "kerbs"),
  ("draft", "draught"),
  ("drafts", "draughts"),
  ("jewelry", "jewellery"),
  ("pajamas", "pyjamas"),
  ("plow", "plough"),
  ("plows", "ploughs"),
  ("skeptic", "sceptic"),
  ("skeptical", "sceptical"),
  ("skepticism", "scepticism")
]

/-- Python `dict` insertion of one key/value pair: a duplicate key
overwrites the stored value in place (keeping its position), a new key is
appended at the end. -/
def dictInsert (d : List (String × String)) (kv : String × String) :
    List (String × String) :=
  if d.any (fun p => p.1 == kv.1) then
    d.map (fun p => if p.1 == kv.1 then kv else p)
  else d ++ [kv]

/-- Building a Python `dict` from a sequence of key/value pairs
(dict literal / dict comprehension semantics: left to right, last
occurrence of a key wins). -/
def buildDict (ps : List (String × String)) : List (String × String) :=
  ps.foldl dictInsert []

/-- The `_US_TO_UK` dict: the literal pairs interpreted with `dict`
semantics. -/
def usToUk : List (String × String) := buildDict usToUkPairs

/-- `_UK_TO_US = {v: k for k, v in _US_TO_UK.items()}`: the value-swapped
pairs of a dict, rebuilt with `dict` semantics (a duplicate value of the
forward dict would silently become a single reverse key, last one wins;
no error is ever signalled). -/
def reverseDict (d : List (String × String)) : List (String × String) :=
  buildDict (d.map (fun p => (p.2, p.1)))

/-- The `_UK_TO_US` dict. -/
def ukToUs : List (String × String) := reverseDict usToUk

/-- The value-swapped literal pairs. -/
def ukToUsPairs : List (String × String) :=
  usToUkPairs.map (fun p => (p.2, p.1))

/-- Python `d[k]` / `k in d` on a dict, as an optional lookup
(keys of a built dict are unique, so the first hit is the entry). -/
def dictLookup (d : List (String × String)) (k : String) : Option String :=
  (d.find? (fun p => p.1 == k)).map (fun p => p.2)

/-- The matches of `_TOKEN_RE = ([A-Za-z]+|[^A-Za-z]+)` under
`re.finditer`, each with its start offset: maximal runs of characters
agreeing with the head character on ASCII-alphabeticity.  `i` is the
offset of the first character of `s` in the whole input.  The recursion
is structural on a fuel argument so that the kernel can evaluate it;
every step consumes at least one character, so the string length is
always enough fuel (the fuel-0 case is never reached from
`tokensFrom`). -/
def tokensFromF : Nat -> Nat -> Str -> List (Nat × Str)
  | 0, _, _ => []
  | _ + 1, _, [] => []
  | fuel + 1, i, c :: cs =>
    let tok := c :: cs.takeWhile (fun d => d.isAlpha == c.isAlpha)
    (i, tok) :: tokensFromF fuel (i + tok.length)
      (cs.dropWhile (fun d => d.isAlpha == c.isAlpha))

/-- The token/offset sequence of a suffix starting at offset `i`. -/
def tokensFrom (i : Nat) (s : Str) : List (Nat × Str) := tokensFromF s.length i s

/-- The token texts alone: the tokenizer of the spec. -/
def tokenize (s : Str) : List Str := (tokensFrom 0 s).map Prod.snd
/-- Python regex `\s` on a character (Unicode whitespace; every member
with code point below 0x80 is listed exactly, larger ones by code
point). -/
def pyIsSpace (c : Char) : Bool :=
  c.val == 32 || (9 <= c.val && c.val <= 13) || (28 <= c.val && c.val <= 31) ||
  c.val == 0x85 || c.val == 0xa0 || c.val == 0x1680 ||
  (0x2000 <= c.val && c.val <= 0x200a) ||
  c.val == 0x2028 || c.val == 0x2029 || c.val == 0x202f ||
  c.val == 0x205f || c.val == 0x3000

/-- The character class `[a-zA-Z0-9._%+-]` (local part of the e-mail
alternative of `_URL_RE`). -/
def isLocalChar (c : Char) : Bool :=
  c.isAlpha || c.isDigit || c == '.' || c == '_' || c == '%' || c == '+' || c == '-'

/-- The character class `[a-zA-Z0-9.-]` (domain part of the e-mail
alternative of `_URL_RE`). -/
def isDomainChar (c : Char) : Bool :=
  c.isAlpha || c.isDigit || c == '.' || c == '-'

/-- Strip a literal pattern from the front of a string:
`some rest` on success, `none` when the literal does not match. -/
def stripPfx : Str -> Str -> Option Str
  | [], s => some s
  | _ :: _, [] => none
  | p :: ps, c :: cs => if p == c then stripPfx ps cs else none

/-- Length of the maximal `[a-zA-Z]` run of `d` starting at index `i`
(the greedy `[a-zA-Z]{2,}` tail of the e-mail alternative). -/
def alphaRunAt (d : Str) (i : Nat) : Nat :=
  ((d.drop i).takeWhile Char.isAlpha).length

/-- Backtracking of `[a-zA-Z0-9.-]+\.[a-zA-Z]{2,}` inside the maximal
domain-character run `d`: the greedy `+` retreats from the right, so the
match uses the largest index `p >= 1` holding a literal `.` followed by
at least two alphabetic characters; the `{2,}` then greedily takes the
whole alphabetic run.  Returns the total number of characters matched
inside `d`. -/
def bestDotSplit (d : Str) : Option Nat :=
  match (List.range d.length).reverse.find? (fun p =>
      decide (1 <= p) && (d.get? p == some '.') &&
      decide (2 <= alphaRunAt d (p + 1))) with
  | some p => some (p + 1 + alphaRunAt d (p + 1))
  | none => none

/-- The alternative `https?://[^\s]+` of `_URL_RE` at the start of `s`:
the optional `s` is greedy, `[^\s]+` runs to the next whitespace and
must be non-empty.  Returns the match length. -/
def matchHttpAt (s : Str) : Option Nat :=
  match stripPfx "http".toList s with
  | none => none
  | some r =>
    let afterScheme : Option (Str × Nat) :=
      match stripPfx "s://".toList r with
      | some r2 => some (r2, 8)
      | none =>
        match stripPfx "://".toList r with
        | some r3 => some (r3, 7)
        | none => none
    match afterScheme with
    | none => none
    | some (rest, n) =>
      let run := rest.takeWhile (fun c => !(pyIsSpace c))
      if run.isEmpty then none else some (n + run.length)

/-- The alternative `www\.[^\s]+` of `_URL_RE` at the start of `s`. -/
def matchWwwAt (s : Str) : Option Nat :=
  match stripPfx "www.".toList s with
  | none => none
  | some rest =>
    let run := rest.takeWhile (fun c => !(pyIsSpace c))
    if run.isEmpty then none else some (4 + run.length)

/-- The e-mail alternative `[a-zA-Z0-9._%+-]+@[a-zA-Z0-9.-]+\.[a-zA-Z]{2,}`
of `_URL_RE` at the start of `s`.  `@` is not a local character, so the
greedy local part is simply the maximal local run and must be followed
by a literal `@`; the domain part backtracks per `bestDotSplit`. -/
def matchEmailAt (s : Str) : Option Nat :=
  let loc := s.takeWhile isLocalChar
  if loc.isEmpty then none
  else
    match s.drop loc.length with
    | '@' :: afterAt =>
      let d := afterAt.takeWhile isDomainChar
      match bestDotSplit d with
      | some m => some (loc.length + 1 + m)
      | none => none
    | _ => none

/-- `_URL_RE` at one position: the three alternatives are tried in
pattern order. -/
def urlMatchAt (s : Str) : Option Nat :=
  match matchHttpAt s with
  | some n => some n
  | none =>
    match matchWwwAt s with
    | some n => some n
    | none => matchEmailAt s

/-- `re.finditer(_URL_RE, text)` turned into `(start, end)` spans, as
collected by `_convert_variant`: scan left to right, emit the leftmost
match, continue right after it (every alternative matches at least one
character, so `n >= 1` whenever a match is found). -/
def findSpansFromF : Nat -> Nat -> Str -> List (Nat × Nat)
  | 0, _, _ => []
  | _ + 1, _, [] => []
  | fuel + 1, i, c :: rest =>
    match urlMatchAt (c :: rest) with
    | some n => (i, i + n) :: findSpansFromF fuel (i + n) (rest.drop (n - 1))
    | none => findSpansFromF fuel (i + 1) rest

/-- The URL/e-mail spans of a whole text (`url_spans` in
`_convert_variant`).  As for the tokenizer, the recursion is structural
on a fuel argument that the string length always covers. -/
def findSpans (s : Str) : List (Nat × Nat) := findSpansFromF s.length 0 s

/-- Python `str.isupper` at ASCII precision: at least one cased
character, and no cased character is lowercase. -/
def pyIsUpperTok (s : Str) : Bool :=
  s.any Char.isAlpha && s.all (fun c => !c.isAlpha || c.isUpper)

/-- `TextCorrector._match_case`.  The two subscript expressions
`original[0]` and `replacement[0]` raise `IndexError` on an empty
string; those paths return `none`. -/
def matchCase (original replacement : Str) : Option Str :=
  if pyIsUpperTok original then some (replacement.map Char.toUpper)
  else
    match original with
    | [] => none
    | c :: _ =>
      if c.isUpper then
        match replacement with
        | [] => none
        | r :: rs => some (r.toUpper :: rs)
      else some replacement

/-- Python `str.isalpha` on a token at ASCII precision: non-empty and
all characters alphabetic. -/
def isWordToken (token : Str) : Bool :=
  !token.isEmpty && token.all Char.isAlpha

/-- One iteration of the token loop of `_convert_variant`: the emitted
text piece and the (zero or one) recorded `Change` for the token `st.2`
starting at offset `st.1`.  The Python locals `in_url` and `lower` are
inlined; `none` models an uncaught exception. -/
def emitToken (mapping : List (String × String)) (spans : List (Nat × Nat))
    (st : Nat × Str) : Option (Str × List Change) :=
  if spans.any (fun sp => sp.1 <= st.1 && st.1 < sp.2) || !(isWordToken st.2) then
    some (st.2, [])
  else
    match dictLookup mapping (String.mk (st.2.map Char.toLower)) with
    | some repl =>
      match matchCase st.2 repl.toList with
      | none => none
      | some proj =>
        if proj != st.2 then some (proj, [⟨"spelling", st.2, proj⟩])
        else some (st.2, [])
    | none => some (st.2, [])

/-- The token loop of `_convert_variant`: pieces are concatenated into
the corrected text, per-token changes are concatenated in walk order,
and an exception in any iteration aborts the whole call. -/
def emitAll (mapping : List (String × String)) (spans : List (Nat × Nat)) :
    List (Nat × Str) -> Option (Str × List Change)
  | [] => some ([], [])
  | st :: rest =>
    match emitToken mapping spans st with
    | none => none
    | some (part, chs) =>
      match emitAll mapping spans rest with
      | none => none
      | some (restText, restChs) => some (part ++ restText, chs ++ restChs)

/-- The direction selection at the top of `_convert_variant`: `"uk"`
picks the US->UK dict, any other variant value falls into the `else`
branch and picks UK->US. -/
def tableFor (variant : String) : List (String × String) :=
  if variant == "uk" then usToUk else ukToUs

/-- `TextCorrector._convert_variant`: direction selection, span
computation, token walk. -/
def convertVariant (text : Str) (variant : String) : Option (Str × List Change) :=
  emitAll (tableFor variant) (findSpans text) (tokensFrom 0 text)

/-- Observer for the change-ordering property: every recorded change
paired with the start offset of the token it came from. -/
def changesWithStarts (mapping : List (String × String))
    (spans : List (Nat × Nat)) : List (Nat × Str) -> List (Nat × Change)
  | [] => []
  | st :: rest =>
    (match emitToken mapping spans st with
     | some (_, chs) => chs.map (fun ch => (st.1, ch))
     | none => []) ++ changesWithStarts mapping spans rest


/-- Checks that a casing `p` of the dictionary value `v` is a fixed
point of the conversion data: a non-empty alphabetic word whose
lowercasing is `v` and whose casing projection from `v` reproduces it.
Used to decide, per table entry, that re-converting an output word
cannot change it again. -/
def projFixed (v : String) (p : Str) : Bool :=
  !p.isEmpty && p.all Char.isAlpha && (String.mk (p.map Char.toLower) == v) &&
  (matchCase p v.toList == some p)

/-- `valueOk v`: the three casings `_match_case` can produce from the
stored value `v` (all-uppercase, first-uppercase, unchanged) are all
fixed points in the sense of `projFixed`. -/
def valueOk (v : String) : Bool :=
  match v.toList with
  | [] => false
  | r0 :: rs =>
    projFixed v ((r0 :: rs).map Char.toUpper) &&
    projFixed v (r0.toUpper :: rs) &&
    projFixed v (r0 :: rs)

/-! ### Basic facts about the tokenizer -/

/-- Any amount of fuel tokenizes the empty string to no tokens. -/
theorem tokensFromF_nil (fuel i : Nat) : tokensFromF fuel i [] = [] := by
  cases fuel <;> rfl

/-- Fuel irrelevance: any fuel covering the string length computes the
same token sequence. -/
theorem tokensFromF_eq (fuel fuel' i : Nat) (s : Str)
    (h : s.length <= fuel) (h' : s.length <= fuel') :
    tokensFromF fuel i s = tokensFromF fuel' i s := by
  induction fuel generalizing fuel' i s with
  | zero =>
    cases s with
    | nil => exact (tokensFromF_nil fuel' i).symm
    | cons c cs => simp at h
  | succ fuel ih =>
    cases s with
    | nil => rw [tokensFromF_nil, tokensFromF_nil]
    | cons c cs =>
      cases fuel' with
      | zero => simp at h'
      | succ fuel' =>
        simp only [tokensFromF]
        have hd : (cs.dropWhile (fun d => d.isAlpha == c.isAlpha)).length <= cs.length :=
          (List.dropWhile_sublist _).length_le
        simp only [List.length_cons] at h h'
        rw [ih _ _ _ (Nat.le_trans hd (Nat.le_of_succ_le_succ h))
          (Nat.le_trans hd (Nat.le_of_succ_le_succ h'))]

/-- The one-step unfolding of the tokenizer on a non-empty string. -/
theorem tokensFrom_cons (i : Nat) (c : Char) (cs : Str) :
    tokensFrom i (c :: cs) =
      (i, c :: cs.takeWhile (fun d => d.isAlpha == c.isAlpha)) ::
        tokensFrom (i + (c :: cs.takeWhile (fun d => d.isAlpha == c.isAlpha)).length)
          (cs.dropWhile (fun d => d.isAlpha == c.isAlpha)) := by
  show tokensFromF (c :: cs).length i (c :: cs) = _
  simp only [List.length_cons, tokensFromF]
  rw [tokensFromF_eq cs.length
    (cs.dropWhile (fun d => d.isAlpha == c.isAlpha)).length _ _
    (List.dropWhile_sublist _).length_le (Nat.le_refl _)]
  rfl

/-- Concatenating the tokens of any suffix reproduces that suffix. -/
theorem tokensFromF_join (fuel : Nat) :
    ∀ (i : Nat) (s : Str), s.length <= fuel ->
      ((tokensFromF fuel i s).map Prod.snd).flatten = s := by
  induction fuel with
  | zero =>
    intro i s h
    cases s with
    | nil => rfl
    | cons c cs => simp at h
  | succ fuel ih =>
    intro i s h
    cases s with
    | nil => rfl
    | cons c cs =>
      simp only [tokensFromF, List.map_cons, List.flatten_cons]
      rw [ih _ _ (Nat.le_trans (List.dropWhile_sublist _).length_le
        (Nat.le_of_succ_le_succ (by simpa using h)))]
      simp [List.takeWhile_append_dropWhile]

/-- A token of any suffix starts no earlier than the suffix itself. -/
theorem tokensFromF_fst_ge (fuel : Nat) :
    ∀ (i : Nat) (s : Str) (p : Nat × Str), p ∈ tokensFromF fuel i s -> i <= p.1 := by
  induction fuel with
  | zero => intro i s p h; simp [tokensFromF] at h
  | succ fuel ih =>
    intro i s p h
    cases s with
    | nil => simp [tokensFromF] at h
    | cons c cs =>
      simp only [tokensFromF, List.mem_cons] at h
      rcases h with h | h
      · rw [h]
      · exact Nat.le_trans (Nat.le_add_right _ _) (ih _ _ _ h)

/-- Token start offsets strictly increase along the token sequence. -/
theorem tokensFromF_pairwise (fuel : Nat) :
    ∀ (i : Nat) (s : Str),
      List.Pairwise (fun a b => a.1 < b.1) (tokensFromF fuel i s) := by
  induction fuel with
  | zero => intro i s; simp [tokensFromF]
  | succ fuel ih =>
    intro i s
    cases s with
    | nil => simp [tokensFromF]
    | cons c cs =>
      simp only [tokensFromF]
      refine List.Pairwise.cons ?_ (ih _ _)
      intro b hb
      have hge := tokensFromF_fst_ge fuel _ _ b hb
      simp only [List.length_cons] at hge
      omega

/-! ### Basic facts about dictionaries, case projection and the token loop -/

/-- A successful lookup comes from an entry of the dictionary. -/
theorem dictLookup_mem {d : List (String × String)} {k v : String}
    (h : dictLookup d k = some v) : ∃ p ∈ d, p.1 = k ∧ p.2 = v := by
  unfold dictLookup at h
  cases hf : d.find? (fun p => p.1 == k) with
  | none => rw [hf] at h; simp at h
  | some pr =>
    rw [hf] at h
    simp at h
    refine ⟨pr, List.mem_of_find?_eq_some hf, ?_, h⟩
    have := List.find?_some hf
    simpa using this

/-- `_match_case` only raises on an empty original or an empty
replacement. -/
theorem matchCase_isSome (o r : Str) (ho : o ≠ []) (hr : r ≠ []) :
    (matchCase o r).isSome = true := by
  cases o with
  | nil => exact absurd rfl ho
  | cons c cs =>
    cases r with
    | nil => exact absurd rfl hr
    | cons r0 rs =>
      unfold matchCase
      split
      · rfl
      · split
        · simp_all
        · split <;> rfl

/-! ### The dictionaries evaluated

The literal pair list has pairwise-distinct keys, so Python dict
construction keeps it unchanged; likewise the reverse dict is exactly
the swapped pair list.  Evaluating the construction once here lets every
later fact about `usToUk`/`ukToUs` be decided on the literal lists. -/

/-- `_US_TO_UK` holds exactly the literal pairs in source order. -/
theorem usToUk_eq : usToUk = usToUkPairs := by decide

/-- `_UK_TO_US` holds exactly the swapped literal pairs in source
order. -/
theorem ukToUs_eq : ukToUs = ukToUsPairs := by decide

/-- A token whose start offset lies inside one of the computed spans is
emitted unchanged, with no change record. -/
theorem emitToken_inSpan (m : List (String × String)) (sp : List (Nat × Nat))
    (st : Nat × Str) (h : ∃ span ∈ sp, span.1 <= st.1 ∧ st.1 < span.2) :
    emitToken m sp st = some (st.2, []) := by
  unfold emitToken
  have hany : (sp.any (fun span => span.1 <= st.1 && st.1 < span.2)) = true := by
    rcases h with ⟨span, hmem, h1, h2⟩
    exact List.any_eq_true.mpr ⟨span, hmem, by simp [h1, h2]⟩
  rw [hany]
  rfl

/-- Each loop iteration records at most one change. -/
theorem emitToken_chs (m : List (String × String)) (sp : List (Nat × Nat))
    (st : Nat × Str) (part : Str) (chs : List Change)
    (h : emitToken m sp st = some (part, chs)) : chs = [] ∨ ∃ ch, chs = [ch] := by
  unfold emitToken at h
  split at h
  · injection h with h'
    injection h' with h1 h2
    exact Or.inl h2.symm
  · split at h
    · split at h
      · exact absurd h (by simp)
      · split at h
        · injection h with h'
          injection h' with h1 h2
          exact Or.inr ⟨_, h2.symm⟩
        · injection h with h'
          injection h' with h1 h2
          exact Or.inl h2.symm
    · injection h with h'
      injection h' with h1 h2
      exact Or.inl h2.symm

/-- If every value of the mapping is a non-empty word, the loop body
never raises. -/
theorem emitToken_isSome (m : List (String × String)) (sp : List (Nat × Nat))
    (st : Nat × Str) (hv : ∀ p ∈ m, p.2.toList ≠ []) :
    (emitToken m sp st).isSome = true := by
  cases he : emitToken m sp st with
  | some pr => rfl
  | none =>
    exfalso
    unfold emitToken at he
    split at he
    · exact absurd he (by simp)
    · rename_i hcond
      have hw : isWordToken st.2 = true := by
        cases hb : isWordToken st.2 with
        | true => rfl
        | false => exact absurd (by simp [hb]) hcond
      have htok : st.2 ≠ [] := by
        intro hnil
        rw [hnil] at hw
        simp [isWordToken] at hw
      split at he
      · rename_i repl hl
        split at he
        · rename_i hmc
          obtain ⟨p, hp, hk, hv2⟩ := dictLookup_mem hl
          have hrepl : repl.toList ≠ [] := hv2 ▸ hv p hp
          have hs := matchCase_isSome st.2 repl.toList htok hrepl
          rw [hmc] at hs
          simp at hs
        · split at he <;> exact absurd he (by simp)
      · exact absurd he (by simp)

/-- The loop never raises on a token list when the mapping values are
non-empty. -/
theorem emitAll_isSome (m : List (String × String)) (sp : List (Nat × Nat))
    (hv : ∀ p ∈ m, p.2.toList ≠ []) :
    ∀ toks, (emitAll m sp toks).isSome = true := by
  intro toks
  induction toks with
  | nil => rfl
  | cons st rest ih =>
    have h1 := emitToken_isSome m sp st hv
    obtain ⟨pr, hpr⟩ := Option.isSome_iff_exists.mp h1
    obtain ⟨prs, hprs⟩ := Option.isSome_iff_exists.mp ih
    obtain ⟨part, chs⟩ := pr
    obtain ⟨restText, restChs⟩ := prs
    unfold emitAll
    rw [hpr, hprs]
    rfl

/-- The change list produced by the loop is the per-token change blocks
in walk order. -/
theorem emitAll_changes (m : List (String × String)) (sp : List (Nat × Nat)) :
    ∀ (toks : List (Nat × Str)) (out : Str) (chs : List Change),
      emitAll m sp toks = some (out, chs) ->
      chs = (changesWithStarts m sp toks).map Prod.snd := by
  intro toks
  induction toks with
  | nil =>
    intro out chs h
    injection h with h'
    injection h' with h1 h2
    rw [← h2]
    rfl
  | cons st rest ih =>
    intro out chs h
    unfold emitAll at h
    cases he : emitToken m sp st with
    | none => rw [he] at h; exact absurd h (by simp)
    | some pr =>
      obtain ⟨part, tchs⟩ := pr
      rw [he] at h
      cases ha : emitAll m sp rest with
      | none => rw [ha] at h; exact absurd h (by simp)
      | some prs =>
        obtain ⟨restText, restChs⟩ := prs
        rw [ha] at h
        injection h with h'
        injection h' with h1 h2
        unfold changesWithStarts
        rw [he, ← h2, ih _ _ ha]
        simp

/-- Every recorded change start is the start of some token. -/
theorem changesWithStarts_fst_mem (m : List (String × String))
    (sp : List (Nat × Nat)) :
    ∀ (toks : List (Nat × Str)) (q : Nat × Change),
      q ∈ changesWithStarts m sp toks -> q.1 ∈ toks.map Prod.fst := by
  intro toks
  induction toks with
  | nil => intro q hq; exact absurd hq (by simp [changesWithStarts])
  | cons st rest ih =>
    intro q hq
    unfold changesWithStarts at hq
    rcases List.mem_append.mp hq with hq | hq
    · cases he : emitToken m sp st with
      | none => rw [he] at hq; simp at hq
      | some pr =>
        rw [he] at hq
        obtain ⟨ch, _, hch⟩ := List.mem_map.mp hq
        rw [← hch]
        simp
    · simp [ih q hq]

/-- Change starts strictly increase when token starts do. -/
theorem changesWithStarts_pairwise (m : List (String × String))
    (sp : List (Nat × Nat)) :
    ∀ (toks : List (Nat × Str)),
      List.Pairwise (fun a b => a.1 < b.1) toks ->
      List.Pairwise (fun a b => a.1 < b.1) (changesWithStarts m sp toks) := by
  intro toks
  induction toks with
  | nil => intro _; exact List.Pairwise.nil
  | cons st rest ih =>
    intro h
    rcases List.pairwise_cons.mp h with ⟨hst, hrest⟩
    unfold changesWithStarts
    apply List.pairwise_append.mpr
    refine ⟨?_, ih hrest, ?_⟩
    · cases he : emitToken m sp st with
      | none => exact List.Pairwise.nil
      | some pr =>
        obtain ⟨part, tchs⟩ := pr
        rcases emitToken_chs m sp st part tchs he with h0 | ⟨ch, h1⟩
        · rw [h0]; exact List.Pairwise.nil
        · rw [h1]; simp
    · intro a ha b hb
      have hb1 : b.1 ∈ rest.map Prod.fst := changesWithStarts_fst_mem m sp rest b hb
      obtain ⟨tb, htb, htb1⟩ := List.mem_map.mp hb1
      have ha1 : a.1 = st.1 := by
        cases he : emitToken m sp st with
        | none => rw [he] at ha; simp at ha
        | some pr =>
          rw [he] at ha
          obtain ⟨ch, _, hch⟩ := List.mem_map.mp ha
          rw [← hch]
      rw [ha1, ← htb1]
      exact hst tb htb

/-! ### Purely alphabetic strings: no spans, one token -/

/-- Stripping a literal keeps a character-wise invariant on the rest. -/
theorem stripPfx_all (p : Char -> Bool) :
    ∀ (pre s r : Str), stripPfx pre s = some r -> s.all p = true -> r.all p = true := by
  intro pre
  induction pre with
  | nil =>
    intro s r h hs
    injection h with h'
    rw [← h']
    exact hs
  | cons a as ih =>
    intro s r h hs
    cases s with
    | nil => exact absurd h (by simp [stripPfx])
    | cons c cs =>
      unfold stripPfx at h
      split at h
      · refine ih cs r h ?_
        simp only [List.all_cons, Bool.and_eq_true] at hs
        exact hs.2
      · exact absurd h (by simp)

/-- A literal containing a non-alphabetic character never matches at the
front of an all-alphabetic string. -/
theorem stripPfx_none (pre : Str) (c : Char) (hc : c ∈ pre)
    (hca : c.isAlpha = false) :
    ∀ s : Str, s.all Char.isAlpha = true -> stripPfx pre s = none := by
  induction pre with
  | nil => exact absurd hc (by simp)
  | cons a as ih =>
    intro s hs
    cases s with
    | nil => rfl
    | cons b bs =>
      unfold stripPfx
      split
      · rename_i hab
        rcases List.mem_cons.mp hc with hc | hc
        · exfalso
          have hb : b.isAlpha = true := by
            simp only [List.all_cons, Bool.and_eq_true] at hs
            exact hs.1
          have hab' : a = b := by simpa using hab
          rw [hc, hab', hb] at hca
          exact absurd hca (by simp)
        · refine ih hc bs ?_
          simp only [List.all_cons, Bool.and_eq_true] at hs
          exact hs.2
      · rfl

/-- ASCII-alphabetic characters are local-part characters. -/
theorem isLocalChar_of_alpha (c : Char) (h : c.isAlpha = true) :
    isLocalChar c = true := by
  unfold isLocalChar
  rw [h]
  rfl

/-- The `https?://` alternative never matches inside an all-alphabetic
string (no `:` is available). -/
theorem matchHttpAt_alpha (s : Str) (hs : s.all Char.isAlpha = true) :
    matchHttpAt s = none := by
  unfold matchHttpAt
  cases hstrip : stripPfx "http".toList s with
  | none => rfl
  | some r =>
    have hr : r.all Char.isAlpha = true := stripPfx_all _ _ _ _ hstrip hs
    have h1 : stripPfx "s://".toList r = none :=
      stripPfx_none _ ':' (by decide) (by decide) r hr
    have h2 : stripPfx "://".toList r = none :=
      stripPfx_none _ ':' (by decide) (by decide) r hr
    dsimp only
    rw [h1, h2]

/-- The `www.` alternative never matches inside an all-alphabetic string
(no `.` is available). -/
theorem matchWwwAt_alpha (s : Str) (hs : s.all Char.isAlpha = true) :
    matchWwwAt s = none := by
  unfold matchWwwAt
  rw [stripPfx_none "www.".toList '.' (by decide) (by decide) s hs]

/-- The e-mail alternative never matches inside an all-alphabetic string
(no `@` is available: the greedy local part swallows everything). -/
theorem matchEmailAt_alpha (s : Str) (hs : s.all Char.isAlpha = true) :
    matchEmailAt s = none := by
  cases s with
  | nil => rfl
  | cons c cs =>
    have hloc : (c :: cs).takeWhile isLocalChar = c :: cs :=
      List.takeWhile_eq_self_iff.mpr (fun d hd =>
        isLocalChar_of_alpha d (List.all_eq_true.mp hs d hd))
    unfold matchEmailAt
    simp only [hloc, List.drop_length, List.isEmpty_cons]
    rfl

/-- `_URL_RE` never matches inside an all-alphabetic string. -/
theorem urlMatchAt_alpha (s : Str) (hs : s.all Char.isAlpha = true) :
    urlMatchAt s = none := by
  unfold urlMatchAt
  rw [matchHttpAt_alpha s hs, matchWwwAt_alpha s hs, matchEmailAt_alpha s hs]

/-- An all-alphabetic text has no URL/e-mail spans. -/
theorem findSpansFromF_alpha (fuel : Nat) :
    ∀ (i : Nat) (s : Str), s.all Char.isAlpha = true ->
      findSpansFromF fuel i s = [] := by
  induction fuel with
  | zero => intro i s h; rfl
  | succ fuel ih =>
    intro i s h
    cases s with
    | nil => rfl
    | cons c cs =>
      unfold findSpansFromF
      rw [urlMatchAt_alpha _ h]
      refine ih _ _ ?_
      simp only [List.all_cons, Bool.and_eq_true] at h
      exact h.2

/-- An all-alphabetic text has no URL/e-mail spans. -/
theorem findSpans_alpha (s : Str) (hs : s.all Char.isAlpha = true) :
    findSpans s = [] := findSpansFromF_alpha s.length 0 s hs

/-- A non-empty all-alphabetic text is one single word token. -/
theorem tokensFrom_single (c : Char) (cs : Str)
    (h : (c :: cs).all Char.isAlpha = true) :
    tokensFrom 0 (c :: cs) = [(0, c :: cs)] := by
  have hc : c.isAlpha = true := by
    simp only [List.all_cons, Bool.and_eq_true] at h
    exact h.1
  have hcs : ∀ d ∈ cs, d.isAlpha = true := by
    simp only [List.all_cons, Bool.and_eq_true, List.all_eq_true] at h
    exact h.2
  have htw : cs.takeWhile (fun d => d.isAlpha == c.isAlpha) = cs :=
    List.takeWhile_eq_self_iff.mpr (fun d hd => by rw [hc, hcs d hd]; rfl)
  have hdw : cs.dropWhile (fun d => d.isAlpha == c.isAlpha) = [] :=
    List.dropWhile_eq_nil_iff.mpr (fun d hd => by rw [hc, hcs d hd]; rfl)
  rw [tokensFrom_cons, htw, hdw]
  rfl

/-! ### Single-word conversions -/

/-- The loop on a single token is the loop body. -/
theorem emitAll_single (m : List (String × String)) (sp : List (Nat × Nat))
    (st : Nat × Str) : emitAll m sp [st] = emitToken m sp st := by
  unfold emitAll
  cases he : emitToken m sp st with
  | none => rfl
  | some pr =>
    obtain ⟨part, chs⟩ := pr
    unfold emitAll
    simp

/-- Converting one all-alphabetic word is one loop-body evaluation with
no protected spans. -/
theorem convert_word_eq (variant : String) (c : Char) (cs : Str)
    (h : (c :: cs).all Char.isAlpha = true) :
    convertVariant (c :: cs) variant = emitToken (tableFor variant) [] (0, c :: cs) := by
  unfold convertVariant
  rw [findSpans_alpha _ h, tokensFrom_single c cs h, emitAll_single]

/-- The loop body on an all-alphabetic word token: lookup, projection,
no-op suppression. -/
theorem emitToken_word (m : List (String × String)) (c : Char) (cs : Str)
    (h : (c :: cs).all Char.isAlpha = true) :
    emitToken m [] (0, c :: cs) =
      match dictLookup m (String.mk ((c :: cs).map Char.toLower)) with
      | some repl =>
        match matchCase (c :: cs) repl.toList with
        | none => none
        | some proj =>
          if proj != c :: cs then some (proj, [⟨"spelling", c :: cs, proj⟩])
          else some (c :: cs, [])
      | none => some (c :: cs, []) := by
  have hw : isWordToken (c :: cs) = true := by
    simp [isWordToken, h]
  unfold emitToken
  simp [hw]

/-- The two possible directions. -/
theorem tableFor_cases (variant : String) :
    tableFor variant = usToUk ∨ tableFor variant = ukToUs := by
  unfold tableFor
  split
  · exact Or.inl rfl
  · exact Or.inr rfl

/-! ### Decided facts about the dictionary entries -/

/-- Every stored US->UK value survives reconversion casing-stably. -/
theorem usAll_valueOk : usToUkPairs.all (fun p => valueOk p.2) = true := by decide

/-- Every stored UK->US value survives reconversion casing-stably. -/
theorem ukAll_valueOk : ukToUsPairs.all (fun p => valueOk p.2) = true := by decide

/-- A US->UK value that is itself a US->UK key maps to itself. -/
theorem usAll_self : usToUkPairs.all (fun p =>
    match dictLookup usToUkPairs p.2 with
    | none => true
    | some v => v == p.2) = true := by decide

/-- A UK->US value that is itself a UK->US key maps to itself. -/
theorem ukAll_self : ukToUsPairs.all (fun p =>
    match dictLookup ukToUsPairs p.2 with
    | none => true
    | some v => v == p.2) = true := by decide

/-- From the per-entry check to its components. -/
theorem projFixed_spec (v : String) (p : Str) (h : projFixed v p = true) :
    p ≠ [] ∧ p.all Char.isAlpha = true ∧ String.mk (p.map Char.toLower) = v ∧
      matchCase p v.toList = some p := by
  unfold projFixed at h
  simp only [Bool.and_eq_true, beq_iff_eq] at h
  obtain ⟨⟨⟨h1, h2⟩, h3⟩, h4⟩ := h
  refine ⟨?_, h2, h3, h4⟩
  intro hnil
  rw [hnil] at h1
  simp at h1

/-- A `valueOk` value is non-empty. -/
theorem valueOk_nonempty (v : String) (h : valueOk v = true) : v.toList ≠ [] := by
  unfold valueOk at h
  split at h
  · simp at h
  · rename_i r0 rs heq
    rw [heq]
    simp

/-- A `valueOk` value has all three projection casings fixed. -/
theorem valueOk_projFixed (v : String) (h : valueOk v = true) (r0 : Char) (rs : Str)
    (heq : v.toList = r0 :: rs) :
    projFixed v ((r0 :: rs).map Char.toUpper) = true ∧
    projFixed v (r0.toUpper :: rs) = true ∧
    projFixed v (r0 :: rs) = true := by
  unfold valueOk at h
  split at h
  · simp at h
  · rename_i a as ha
    rw [heq] at ha
    injection ha with h1 h2
    subst h1
    subst h2
    simp only [Bool.and_eq_true] at h
    exact ⟨h.1.1, h.1.2, h.2⟩

/-- Every value of either direction's dict passes `valueOk`. -/
theorem tableFor_valueOk (variant : String) :
    ∀ p ∈ tableFor variant, valueOk p.2 = true := by
  intro p hp
  rcases tableFor_cases variant with ht | ht <;> rw [ht] at hp
  · rw [usToUk_eq] at hp
    exact List.all_eq_true.mp usAll_valueOk p hp
  · rw [ukToUs_eq] at hp
    exact List.all_eq_true.mp ukAll_valueOk p hp

/-- Looking up a value of the dict in the same dict (when it is also a
key) returns that value unchanged. -/
theorem tableFor_self (variant : String) :
    ∀ p ∈ tableFor variant, ∀ v,
      dictLookup (tableFor variant) p.2 = some v -> v = p.2 := by
  intro p hp v hv
  rcases tableFor_cases variant with ht | ht <;> rw [ht] at hp hv
  · rw [usToUk_eq] at hp hv
    have := List.all_eq_true.mp usAll_self p hp
    rw [hv] at this
    simpa using this
  · rw [ukToUs_eq] at hp hv
    have := List.all_eq_true.mp ukAll_self p hp
    rw [hv] at this
    simpa using this

/-- Every value of either direction's dict is a non-empty string. -/
theorem tableFor_nonempty (variant : String) :
    ∀ p ∈ tableFor variant, p.2.toList ≠ [] := by
  intro p hp
  exact valueOk_nonempty p.2 (tableFor_valueOk variant p hp)

/-- Converting a single word, then converting the output again in the
same direction, reproduces the output with no further changes. -/
theorem convert_word_rerun (variant : String) (c : Char) (cs : Str)
    (h : (c :: cs).all Char.isAlpha = true) (out : Str) (chs : List Change)
    (hconv : convertVariant (c :: cs) variant = some (out, chs)) :
    convertVariant out variant = some (out, []) := by
  rw [convert_word_eq variant c cs h, emitToken_word _ c cs h] at hconv
  cases hl : dictLookup (tableFor variant) (String.mk ((c :: cs).map Char.toLower)) with
  | none =>
    rw [hl] at hconv
    have hout : out = c :: cs := by
      injection hconv with h'
      injection h' with h1 h2
      exact h1.symm
    subst hout
    rw [convert_word_eq variant c cs h, emitToken_word _ c cs h, hl]
  | some repl =>
    rw [hl] at hconv
    dsimp only at hconv
    obtain ⟨pr, hpr, hprk, hprv⟩ := dictLookup_mem hl
    have hOk : valueOk repl = true := hprv ▸ tableFor_valueOk variant pr hpr
    have hne : repl.toList ≠ [] := valueOk_nonempty repl hOk
    cases hmc : matchCase (c :: cs) repl.toList with
    | none => rw [hmc] at hconv; exact absurd hconv (by simp)
    | some proj =>
      rw [hmc] at hconv
      dsimp only at hconv
      obtain ⟨r0, rs, hrepl⟩ : ∃ r0 rs, repl.toList = r0 :: rs := by
        cases hrt : repl.toList with
        | nil => exact absurd hrt hne
        | cons a as => exact ⟨a, as, rfl⟩
      have hshapes := valueOk_projFixed repl hOk r0 rs hrepl
      have hproj : proj = (r0 :: rs).map Char.toUpper ∨
          proj = r0.toUpper :: rs ∨ proj = r0 :: rs := by
        unfold matchCase at hmc
        rw [hrepl] at hmc
        split at hmc
        · injection hmc with h'
          exact Or.inl h'.symm
        · split at hmc
          · simp at hmc
          · split at hmc
            · injection hmc with h'
              exact Or.inr (Or.inl h'.symm)
            · injection hmc with h'
              exact Or.inr (Or.inr h'.symm)
      have hpf : projFixed repl proj = true := by
        rcases hproj with h' | h' | h' <;> rw [h']
        · exact hshapes.1
        · exact hshapes.2.1
        · exact hshapes.2.2
      obtain ⟨hpne, hpalpha, hplow, hpfix⟩ := projFixed_spec repl proj hpf
      obtain ⟨p0, ps, hp0⟩ : ∃ p0 ps, proj = p0 :: ps := by
        cases hpt : proj with
        | nil => exact absurd hpt hpne
        | cons a as => exact ⟨a, as, rfl⟩
      have hgoal : convertVariant proj variant = some (proj, []) := by
        rw [hp0]
        rw [convert_word_eq variant p0 ps (hp0 ▸ hpalpha),
          emitToken_word _ p0 ps (hp0 ▸ hpalpha)]
        have hlow2 : String.mk ((p0 :: ps).map Char.toLower) = repl := hp0 ▸ hplow
        rw [hlow2]
        cases hl2 : dictLookup (tableFor variant) repl with
        | none => rfl
        | some v2 =>
          have hv2 : v2 = repl := by
            have hx := tableFor_self variant pr hpr v2 (by rw [hprv]; exact hl2)
            rw [hprv] at hx
            exact hx
          subst hv2
          dsimp only
          rw [hp0] at hpfix
          rw [hpfix]
          simp
      split at hconv
      · have hout : out = proj := by
          injection hconv with h'
          injection h' with h1 h2
          exact h1.symm
        rw [hout]
        exact hgoal
      · rename_i hbne
        have hpe : proj = c :: cs := by simpa using hbne
        have hout : out = c :: cs := by
          injection hconv with h'
          injection h' with h1 h2
          exact h1.symm
        rw [hout, ← hpe]
        exact hgoal

/-! ### Bridges from `convertVariant` to the evaluated dictionaries -/

/-- The `"uk"` direction uses the literal US->UK pairs. -/
theorem tableFor_uk : tableFor "uk" = usToUkPairs := by
  rw [show tableFor "uk" = usToUk from rfl, usToUk_eq]

/-- The `"us"` direction uses the swapped literal pairs. -/
theorem tableFor_us : tableFor "us" = ukToUsPairs := by
  rw [show tableFor "us" = ukToUs from rfl, ukToUs_eq]

/-- Conversion towards `"uk"`, with the dictionary evaluated. -/
theorem convertVariant_uk (text : Str) :
    convertVariant text "uk" =
      emitAll usToUkPairs (findSpans text) (tokensFrom 0 text) := by
  show emitAll (tableFor "uk") _ _ = _
  rw [tableFor_uk]

/-- Conversion towards `"us"`, with the dictionary evaluated. -/
theorem convertVariant_us (text : Str) :
    convertVariant text "us" =
      emitAll ukToUsPairs (findSpans text) (tokensFrom 0 text) := by
  show emitAll (tableFor "us") _ _ = _
  rw [tableFor_us]

/-- The core never raises: every conversion returns a result. -/
theorem convertVariant_isSome (text : Str) (variant : String) :
    (convertVariant text variant).isSome = true := by
  unfold convertVariant
  exact emitAll_isSome _ _ (tableFor_nonempty variant) _

/-- The spelling-change list of a conversion, with its token starts. -/
theorem convertVariant_changes (text : Str) (variant : String) (out : Str)
    (chs : List Change) (h : convertVariant text variant = some (out, chs)) :
    chs = (changesWithStarts (tableFor variant) (findSpans text)
      (tokensFrom 0 text)).map Prod.snd :=
  emitAll_changes _ _ _ _ _ h

/-- The token starts of the recorded changes strictly increase. -/
theorem convertVariant_changes_sorted (text : Str) (variant : String) :
    List.Pairwise (· < ·) ((changesWithStarts (tableFor variant) (findSpans text)
      (tokensFrom 0 text)).map Prod.fst) := by
  rw [List.pairwise_map]
  exact changesWithStarts_pairwise _ _ _ (tokensFromF_pairwise _ _ _)


/-- Reverse lookup undoes forward lookup on every stored pair. -/
theorem us_roundTrip : usToUkPairs.all
    (fun p => dictLookup ukToUsPairs p.2 == some p.1) = true := by decide

/-- On an all-alphabetic token, Python `isupper` is `all isUpper`. -/
theorem allUpper_of_alpha (l : Str) (hl : l.all Char.isAlpha = true) :
    l.all (fun c => !c.isAlpha || c.isUpper) = l.all Char.isUpper := by
  induction l with
  | nil => rfl
  | cons d ds ih =>
    simp only [List.all_cons, Bool.and_eq_true] at hl
    simp only [List.all_cons, hl.1, Bool.not_true, Bool.false_or, ih hl.2]

/-- On a non-empty all-alphabetic token, `pyIsUpperTok` is `all
isUpper`. -/
theorem pyIsUpperTok_alpha (c : Char) (cs : Str)
    (h : (c :: cs).all Char.isAlpha = true) :
    pyIsUpperTok (c :: cs) = (c :: cs).all Char.isUpper := by
  have hc : c.isAlpha = true := by
    simp only [List.all_cons, Bool.and_eq_true] at h
    exact h.1
  unfold pyIsUpperTok
  rw [show (c :: cs).any Char.isAlpha = true by simp [hc], Bool.true_and]
  exact allUpper_of_alpha _ h

/-! ### The claims -/

/-- Claim C1: for the input "Visit https://example.com/color for the
color." converted to variant two (`"uk"`), the conversion returns
"Visit https://example.com/color for the colour." with exactly one
Change whose original is "color" and whose replacement is "colour"; the
occurrence of "color" inside the URL span is left unchanged.  In
general, a token whose start offset lies inside a computed URL/e-mail
span is emitted unchanged, with no change record. -/
theorem c1_url_protection :
    (convertVariant "Visit https://example.com/color for the color.".toList "uk" =
      some ("Visit https://example.com/color for the colour.".toList,
        [⟨"spelling", "color".toList, "colour".toList⟩])) ∧
    (∀ (mapping : List (String × String)) (text : Str) (start : Nat) (tok : Str),
      (start, tok) ∈ tokensFrom 0 text ->
      (∃ span ∈ findSpans text, span.1 <= start ∧ start < span.2) ->
      emitToken mapping (findSpans text) (start, tok) = some (tok, [])) := by
  constructor
  · rw [convertVariant_uk]
    decide
  · intro mapping text start tok hmem hspan
    exact emitToken_inSpan mapping (findSpans text) (start, tok) hspan

/-- Witness for claim C1: the token "https" at offset 6 of the scenario
input lies inside the span (6, 31) and is emitted unchanged. -/
theorem c1_url_protection_witness :
    emitToken usToUkPairs
      (findSpans "Visit https://example.com/color for the color.".toList)
      (6, "https".toList) = some ("https".toList, []) :=
  c1_url_protection.2 usToUkPairs
    "Visit https://example.com/color for the color.".toList 6 "https".toList
    (by decide) (by decide)

/-- Claim C2: tokenization is lossless; concatenating the texts of all
tokens, in order, reproduces the input string exactly. -/
theorem c2_tokenize_lossless (s : Str) : (tokenize s).flatten = s :=
  tokensFromF_join s.length 0 s (Nat.le_refl _)

/-- Claim C3: case projection follows the three-rule priority
(all-uppercase original gives uppercased replacement; else uppercase
first character gives replacement with first character uppercased, rest
unchanged; else replacement unchanged), and in particular
"COLOR" -> "COLOUR", "Color" -> "Colour", "color" -> "colour" when
converting towards variant two. -/
theorem c3_case_projection :
    (∀ (c : Char) (cs : Str) (r : Char) (rs : Str),
      (c :: cs).all Char.isAlpha = true ->
      (((c :: cs).all Char.isUpper = true ->
         matchCase (c :: cs) (r :: rs) = some ((r :: rs).map Char.toUpper)) ∧
       ((c :: cs).all Char.isUpper = false -> c.isUpper = true ->
         matchCase (c :: cs) (r :: rs) = some (r.toUpper :: rs)) ∧
       ((c :: cs).all Char.isUpper = false -> c.isUpper = false ->
         matchCase (c :: cs) (r :: rs) = some (r :: rs)))) ∧
    (convertVariant "COLOR".toList "uk" =
      some ("COLOUR".toList, [⟨"spelling", "COLOR".toList, "COLOUR".toList⟩])) ∧
    (convertVariant "Color".toList "uk" =
      some ("Colour".toList, [⟨"spelling", "Color".toList, "Colour".toList⟩])) ∧
    (convertVariant "color".toList "uk" =
      some ("colour".toList, [⟨"spelling", "color".toList, "colour".toList⟩])) := by
  refine ⟨?_, ?_, ?_, ?_⟩
  · intro c cs r rs h
    have hpy := pyIsUpperTok_alpha c cs h
    refine ⟨?_, ?_, ?_⟩
    · intro hup
      unfold matchCase
      rw [hpy, hup]
      rfl
    · intro hup hc
      unfold matchCase
      rw [hpy, hup]
      simp [hc]
    · intro hup hc
      unfold matchCase
      rw [hpy, hup]
      simp [hc]
  · rw [convertVariant_uk]; decide
  · rw [convertVariant_uk]; decide
  · rw [convertVariant_uk]; decide

/-- Witness for claim C3: projecting the casing of "Color" onto
"colour" gives "Colour". -/
theorem c3_case_projection_witness :
    matchCase "Color".toList "colour".toList = some "Colour".toList :=
  (c3_case_projection.1 'C' "olor".toList 'c' "olour".toList (by decide)).2.1
    (by decide) (by decide)

/-- Counterexample to claim C4: "programmed" is a stored variant-two
value (so "pRogrammed" is a word already in the target variant's
spelling, case-insensitively), yet converting "pRogrammed" to `"uk"`
rewrites it to "programmed" and records a Change, because "programmed"
is also a source key and the casing projection does not reproduce the
mixed-case original. -/
theorem c4_noop_counterexample :
    ("programmed" ∈ usToUk.map Prod.snd) ∧
    convertVariant "pRogrammed".toList "uk" =
      some ("programmed".toList,
        [⟨"spelling", "pRogrammed".toList, "programmed".toList⟩]) := by
  constructor
  · rw [usToUk_eq]; decide
  · rw [convertVariant_uk]; decide

/-- Claim C4 (amended): a WORD token whose case-projected replacement
equals the original is emitted unchanged with no Change; converting a
single word already in the target variant's spelling produces no Change
and identical output provided its lowercase form is not also a source
key; and re-running the conversion on the output of any single-word
conversion, in the same direction, returns that output unchanged with
an empty change list. -/
theorem c4_noop_amended :
    (∀ (mapping : List (String × String)) (spans : List (Nat × Nat))
       (start : Nat) (tok : Str) (repl : String) (proj : Str),
      dictLookup mapping (String.mk (tok.map Char.toLower)) = some repl ->
      matchCase tok repl.toList = some proj -> proj = tok ->
      emitToken mapping spans (start, tok) = some (tok, [])) ∧
    (∀ (variant : String) (c : Char) (cs : Str),
      (c :: cs).all Char.isAlpha = true ->
      String.mk ((c :: cs).map Char.toLower) ∈ (tableFor variant).map Prod.snd ->
      dictLookup (tableFor variant) (String.mk ((c :: cs).map Char.toLower)) = none ->
      convertVariant (c :: cs) variant = some (c :: cs, [])) ∧
    (∀ (variant : String) (c : Char) (cs out : Str) (chs : List Change),
      (c :: cs).all Char.isAlpha = true ->
      convertVariant (c :: cs) variant = some (out, chs) ->
      convertVariant out variant = some (out, [])) := by
  refine ⟨?_, ?_, ?_⟩
  · intro mapping spans start tok repl proj hl hmc hpe
    unfold emitToken
    split
    · rfl
    · dsimp only
      rw [hl]
      dsimp only
      rw [hmc]
      dsimp only
      rw [hpe, bne_self_eq_false]
      rfl
  · intro variant c cs h hmem hnone
    rw [convert_word_eq variant c cs h, emitToken_word _ c cs h, hnone]
  · intro variant c cs out chs h hconv
    exact convert_word_rerun variant c cs h out chs hconv

/-- Witness for claim C4: "colour" is already the variant-two spelling;
converting it to `"uk"` leaves it unchanged with no Change. -/
theorem c4_noop_amended_witness :
    convertVariant "colour".toList "uk" = some ("colour".toList, []) :=
  c4_noop_amended.2.1 "uk" 'c' "olour".toList (by decide)
    (by rw [tableFor_uk]; decide) (by rw [tableFor_uk]; decide)

/-- Claim C5: for the sentence scenario the spelling changes are exactly
color -> colour then neighbor -> neighbour, in that order; in general
the change list equals the per-token change blocks in token order, and
the token start offsets of the recorded changes strictly increase along
the list (document order). -/
theorem c5_change_order :
    (convertVariant "The color is nice and the neighbor is kind.".toList "uk" =
      some ("The colour is nice and the neighbour is kind.".toList,
        [⟨"spelling", "color".toList, "colour".toList⟩,
         ⟨"spelling", "neighbor".toList, "neighbour".toList⟩])) ∧
    (∀ (text : Str) (variant : String) (out : Str) (chs : List Change),
      convertVariant text variant = some (out, chs) ->
      chs = (changesWithStarts (tableFor variant) (findSpans text)
        (tokensFrom 0 text)).map Prod.snd ∧
      List.Pairwise (· < ·) ((changesWithStarts (tableFor variant) (findSpans text)
        (tokensFrom 0 text)).map Prod.fst)) := by
  constructor
  · rw [convertVariant_uk]; decide
  · intro text variant out chs h
    exact ⟨convertVariant_changes text variant out chs h,
      convertVariant_changes_sorted text variant⟩

/-- Witness for claim C5: the change structure of the sentence scenario,
with strictly increasing token starts. -/
theorem c5_change_order_witness :
    ([⟨"spelling", "color".toList, "colour".toList⟩,
      ⟨"spelling", "neighbor".toList, "neighbour".toList⟩] : List Change) =
      (changesWithStarts (tableFor "uk")
        (findSpans "The color is nice and the neighbor is kind.".toList)
        (tokensFrom 0 "The color is nice and the neighbor is kind.".toList)).map
          Prod.snd ∧
    List.Pairwise (· < ·) ((changesWithStarts (tableFor "uk")
      (findSpans "The color is nice and the neighbor is kind.".toList)
      (tokensFrom 0 "The color is nice and the neighbor is kind.".toList)).map
        Prod.fst) :=
  c5_change_order.2 "The color is nice and the neighbor is kind.".toList "uk"
    "The colour is nice and the neighbour is kind.".toList
    [⟨"spelling", "color".toList, "colour".toList⟩,
     ⟨"spelling", "neighbor".toList, "neighbour".toList⟩]
    (by rw [convertVariant_uk]; decide)

/-- Claim C6: the conversion core is total - it returns a result for
every input string and every variant value, and the empty string yields
the empty corrected text with an empty change list. -/
theorem c6_totality :
    (∀ (text : Str) (variant : String), (convertVariant text variant).isSome = true) ∧
    (∀ (variant : String), convertVariant [] variant = some ([], [])) :=
  ⟨convertVariant_isSome, fun _ => rfl⟩

/-- Counterexample to claim C7: building the reverse dict from a forward
table whose two values coincide does not fail; the comprehension
silently keeps the last pair (`{v: k for k, v in ...}` semantics), so
the inversion of [("a", "x"), ("b", "x")] is the one-entry dict
[("x", "b")] rather than any build-time error. -/
theorem c7_reverse_counterexample :
    reverseDict [("a", "x"), ("b", "x")] = [("x", "b")] := by decide

/-- Claim C7 (amended): reverse construction never signals an error
(duplicate reverse keys would be collapsed silently, last-wins); for the
shipped table all forward values are pairwise distinct, so the reverse
dict exactly inverts the forward dict. -/
theorem c7_reverse_amended :
    (List.Pairwise (· ≠ ·) (usToUk.map Prod.snd)) ∧
    (∀ (k v : String), dictLookup usToUk k = some v ->
      dictLookup ukToUs v = some k) := by
  constructor
  · rw [usToUk_eq]; decide
  · intro k v h
    rw [usToUk_eq] at h
    obtain ⟨p, hp, hk, hv⟩ := dictLookup_mem h
    rw [ukToUs_eq, ← hk, ← hv]
    simpa using List.all_eq_true.mp us_roundTrip p hp

/-- Witness for claim C7: looking up "colour" in the reverse dict
returns "color". -/
theorem c7_reverse_amended_witness : dictLookup ukToUs "colour" = some "color" :=
  c7_reverse_amended.2 "color" "colour" (by rw [usToUk_eq]; decide)

/-- Counterexample to claim C8: the identical pair
("programmed", "programmed") is stored in the forward table, so it is
not true that every stored key maps to a value different from itself. -/
theorem c8_selfmap_counterexample :
    dictLookup usToUk "programmed" = some "programmed" ∧
    ¬ (∀ p ∈ usToUk, p.2 ≠ p.1) := by
  constructor
  · rw [usToUk_eq]; decide
  · rw [usToUk_eq]; decide

/-- Claim C8 (amended): "programmed" is the only key of the forward
table that maps to itself; every other key maps to a different value. -/
theorem c8_selfmap_amended :
    ∀ p ∈ usToUk, p.2 = p.1 -> p.1 = "programmed" := by
  rw [usToUk_eq]
  decide

/-- Witness for claim C8: the self-mapping entry is the stored pair
("programmed", "programmed"). -/
theorem c8_selfmap_amended_witness :
    (("programmed", "programmed") : String × String).1 = "programmed" :=
  c8_selfmap_amended ("programmed", "programmed") (by rw [usToUk_eq]; decide) rfl

/-- Claim C9: for every key of the forward table whose image differs
from it, looking the image up in the reverse table returns exactly the
original key (round trip for distinct spellings). -/
theorem c9_round_trip :
    ∀ (k v : String), dictLookup usToUk k = some v -> v ≠ k ->
      dictLookup ukToUs v = some k := by
  intro k v h hne
  rw [usToUk_eq] at h
  obtain ⟨p, hp, hk, hv⟩ := dictLookup_mem h
  rw [ukToUs_eq, ← hk, ← hv]
  simpa using List.all_eq_true.mp us_roundTrip p hp

/-- Witness for claim C9: "check" -> "cheque" -> "check". -/
theorem c9_round_trip_witness : dictLookup ukToUs "cheque" = some "check" :=
  c9_round_trip "check" "cheque" (by rw [usToUk_eq]; decide) (by decide)

/-- Claim C10: every variant value other than exactly "uk" selects the
UK->US direction and behaves identically to "us". -/
theorem c10_default_direction :
    ∀ (text : Str) (variant : String), variant ≠ "uk" ->
      convertVariant text variant = convertVariant text "us" := by
  intro text variant h
  unfold convertVariant tableFor
  rw [show (variant == "uk") = false from beq_eq_false_iff_ne.mpr h]
  rfl

/-- Witness for claim C10: the unrecognized variant "fr" converts like
"us". -/
theorem c10_default_direction_witness :
    convertVariant "colour".toList "fr" = convertVariant "colour".toList "us" :=
  c10_default_direction "colour".toList "fr" (by decide)

end Corrector
